import Mathlib

/-!
Verification development for the pixf image-extraction pipeline
(package imageHandling, file internal/toolset/imageHandling.go, and main.go).

The Go code is shallowly embedded as pure Lean functions:

* File bytes are lists of naturals; a digest is an abstract value produced by
  a digest function passed as a parameter (the source computes a SHA-256 hex
  string with hashBytes; the dedup logic depends only on the digest function
  being a function, so every theorem is quantified over it and a concrete
  instance is used in witnesses).
* Decoding with the external image library is modelled as an oracle
  decode : Bytes -> Option A carried by the World structure; the pixel encoders
  from the external png and webp libraries are modelled as abstract records
  with an Encode function and an Extension string, matching the ImageEncoder
  interface of the source.
* Side effects are made observable: ExtractImagesFromFile returns, besides its
  Except result, the chronological list of I/O events it performs (creation of
  the output directory, the temp-dir extraction performed by the pdfcpu
  collaborator, and each file write).  Reads and writes themselves are modelled
  as succeeding; write events of the concurrent stage are listed in task-index
  order (the on-disk outcome is index-determined, names never race).
* The Unicode lower-casing of the Go strings package is modelled on ASCII,
  which covers every string the pipeline compares (format keys and filename
  extensions produced by the extractor).
-/

namespace Pixf

/-- Raw file content, one natural per byte. -/
abbrev Bytes := List Nat

/-- ASCII model of the per-character lower-casing used by strings.ToLower. -/
def charToLower (c : Char) : Char :=
  if 'A' ≤ c ∧ c ≤ 'Z' then Char.ofNat (c.toNat + 32) else c

/-- Model of strings.ToLower (ASCII range). -/
def sToLower (s : String) : String :=
  ⟨s.data.map charToLower⟩

/-- Helper for filepathExt: scans the reversed character list, accumulating a
candidate extension until the final dot is found; stops empty at a path
separator or at the start of the string, exactly like the loop in Go's
filepath.Ext. -/
def extRevAux (acc : List Char) : List Char → List Char
  | [] => []
  | c :: rest =>
    if c = '/' then []
    else if c = '.' then c :: acc
    else extRevAux (c :: acc) rest

/-- Model of filepath.Ext: the suffix of the path starting at the final dot of
the final path element, empty when there is no dot. -/
def filepathExt (path : String) : String :=
  ⟨extRevAux [] path.data.reverse⟩

/-- Model of fmt.Sprintf with verb %04d: decimal digits, left-padded with
zeros to at least four characters. -/
def pad4 (n : Nat) : String :=
  let s := toString n
  if s.length < 4 then String.mk (List.replicate (4 - s.length) '0') ++ s else s

/-- The output file name scheme image_%04d with an extension, shared by
writeImageFile and processExtractedFilesSequential in the source. -/
def imageFileName (n : Nat) (ext : String) : String :=
  "image_" ++ pad4 n ++ ext

/-- From isImageFile: a file participates in the pipeline exactly when its
lower-cased extension is one of the seven raster-image extensions. -/
def isImageFile (filename : String) : Bool :=
  let ext := sToLower (filepathExt filename)
  ext == ".png" || ext == ".jpg" || ext == ".jpeg" || ext == ".gif" ||
    ext == ".bmp" || ext == ".tiff" || ext == ".webp"

/-- From processExtractedFilesSequential: the extension given to a
copy-through output file, the source extension lower-cased, with .png
substituted when it is empty. -/
def outputExt (name : String) : String :=
  let origExt := sToLower (filepathExt name)
  if origExt == "" then ".png" else origExt

/-- One entry of the temp directory produced by the extractor collaborator
(name, directory flag as reported by os.ReadDir, and file content). -/
structure ExtractedFile where
  name : String
  isDir : Bool
  data : Bytes
  deriving Repr, DecidableEq

/-- From the LoadedImage struct: a decoded pixel value together with the raw
file content used for deduplication. -/
structure LoadedImage (A : Type) where
  Img : A
  FileData : Bytes
  deriving Repr, DecidableEq

/-- Model of the ImageEncoder interface: a serializer for decoded pixels and
its file extension.  The png and webp instances of the source delegate to
external libraries and are therefore abstract records here. -/
structure ImageEncoder (A : Type) where
  Encode : A → Bytes
  Extension : String

/-- The error taxonomy of the pipeline as the source distinguishes it. -/
inductive Err where
  | extractFail
  | unsupportedFormat (format : String)
  | decodeError
  deriving Repr, DecidableEq

/-- Observable I/O events of ExtractImagesFromFile, in program order:
creation of the output directory, the pdfcpu extraction into the temp
directory, and each output-file write (name relative to the output
directory, bytes written). -/
inductive Event where
  | mkdirOut
  | tempExtract
  | writeFile (name : String) (data : Bytes)
  deriving Repr, DecidableEq

/-- The external world as the pipeline observes it: the outcome of the
pdfcpu extraction plus temp-dir listing, and the decode oracle of the image
library. -/
structure World (A : Type) where
  extracted : Except Unit (List ExtractedFile)
  decode : Bytes → Option A

/-- From GetEncoder: lower-case the format key and look it up in the encoder
registry, which holds exactly the keys png and webp. -/
def GetEncoder {A : Type} (pngE webpE : ImageEncoder A) (format : String) :
    Except Err (ImageEncoder A) :=
  let f := sToLower format
  if f == "png" then .ok pngE
  else if f == "webp" then .ok webpE
  else .error (.unsupportedFormat f)

/-- From writeImageFile: encode the pixels and write them under
image_%04d with the one-based index and the encoder's extension; returns the
written (name, bytes) pair. -/
def writeImageFile {A : Type} (encoder : ImageEncoder A) (img : A) (index : Nat) :
    String × Bytes :=
  (imageFileName (index + 1) encoder.Extension, encoder.Encode img)

/-- Loop body of processExtractedFilesSequential: walks the directory entries
carrying the set of digests already seen, the duplicate count and the
uniqueCount used for naming; returns the written (name, bytes) pairs in order
together with the final duplicate count. -/
def processSeqAux {D : Type} [DecidableEq D] (hash : Bytes → D) :
    List ExtractedFile → List D → Nat → Nat → List (String × Bytes) × Nat
  | [], _, dupCount, _ => ([], dupCount)
  | f :: rest, seen, dupCount, uniqueCount =>
    if f.isDir || !isImageFile f.name then
      processSeqAux hash rest seen dupCount uniqueCount
    else
      let h := hash f.data
      if h ∈ seen then
        processSeqAux hash rest seen (dupCount + 1) uniqueCount
      else
        let dst := imageFileName uniqueCount (outputExt f.name)
        let r := processSeqAux hash rest (h :: seen) dupCount (uniqueCount + 1)
        ((dst, f.data) :: r.1, r.2)

/-- From processExtractedFilesSequential: copy-through processing of the
extracted files, starting from an empty seen set and counters at zero. -/
def processExtractedFilesSequential {D : Type} [DecidableEq D] (hash : Bytes → D)
    (files : List ExtractedFile) : List (String × Bytes) × Nat :=
  processSeqAux hash files [] 0 0

/-- Loading loop of extractImagesConcurrent: skip entries that are not image
files, decode each remaining entry, and abort with a decode error as soon as
one entry fails to decode; otherwise collect the LoadedImage records in
directory order. -/
def loadImages {A : Type} (decode : Bytes → Option A) :
    List ExtractedFile → Except Err (List (LoadedImage A))
  | [] => .ok []
  | f :: rest =>
    if !isImageFile f.name then loadImages decode rest
    else
      match decode f.data with
      | none => .error .decodeError
      | some img => (loadImages decode rest).map (fun l => ⟨img, f.data⟩ :: l)

/-- Deduplication loop of extractImagesConcurrent: single pass over the loaded
images keeping the first occurrence of each digest, carrying the seen set and
the duplicate count. -/
def dedupeAux {A D : Type} [DecidableEq D] (hash : Bytes → D) :
    List (LoadedImage A) → List D → Nat → List (LoadedImage A) × Nat
  | [], _, dupCount => ([], dupCount)
  | li :: rest, seen, dupCount =>
    let h := hash li.FileData
    if h ∈ seen then
      dedupeAux hash rest seen (dupCount + 1)
    else
      let r := dedupeAux hash rest (h :: seen) dupCount
      (li :: r.1, r.2)

/-- The deduplication stage of extractImagesConcurrent, from an empty seen set
and a zero duplicate count. -/
def dedupe {A D : Type} [DecidableEq D] (hash : Bytes → D)
    (loadedImages : List (LoadedImage A)) : List (LoadedImage A) × Nat :=
  dedupeAux hash loadedImages [] 0

/-- From processImagesConcurrently: the worker count of the encode pool.  The
source sets numWorkers to the literal 4; the machine's available parallelism
is passed here as a parameter to make its (non-)use visible, and the source
ignores it. -/
def numWorkers (_availableParallelism : Nat) : Nat :=
  4

/-- Result-collection loop of processImagesConcurrently: consume the result
stream in arrival order (none models a nil error value) and return the first
error together with how many results were consumed before returning. -/
def collectErrors {E : Type} : List (Option E) → Option E × Nat
  | [] => (none, 0)
  | none :: rest =>
    let r := collectErrors rest
    (r.1, r.2 + 1)
  | some e :: _ => (some e, 1)

/-- Write stage of processImagesConcurrently: one writeImageFile call per
unique image, the task index being the position assigned before the pool
starts; events are listed in task-index order. -/
def processImagesConcurrentlyM {A : Type} (encoder : ImageEncoder A)
    (uniq : List (LoadedImage A)) : List Event :=
  uniq.enum.map fun p => Event.writeFile (writeImageFile encoder p.2.Img p.1).1
    (writeImageFile encoder p.2.Img p.1).2

/-- From extractImagesOriginal: extract to the temp directory, then run the
sequential copy-through processing; result plus event trace. -/
def extractImagesOriginalM {A D : Type} [DecidableEq D] (hash : Bytes → D)
    (w : World A) : Except Err Unit × List Event :=
  match w.extracted with
  | .error _ => (.error .extractFail, [.tempExtract])
  | .ok files =>
    let r := processExtractedFilesSequential hash files
    (.ok (), .tempExtract :: r.1.map fun o => Event.writeFile o.1 o.2)

/-- From extractImagesConcurrent: extract to the temp directory, load and
decode every image file (aborting on the first decode failure), return early
when nothing was loaded, otherwise dedupe and run the encode pool. -/
def extractImagesConcurrentM {A D : Type} [DecidableEq D] (hash : Bytes → D)
    (w : World A) (encoder : ImageEncoder A) : Except Err Unit × List Event :=
  match w.extracted with
  | .error _ => (.error .extractFail, [.tempExtract])
  | .ok files =>
    match loadImages w.decode files with
    | .error e => (.error e, [.tempExtract])
    | .ok loaded =>
      if loaded.isEmpty then (.ok (), [.tempExtract])
      else (.ok (), .tempExtract :: processImagesConcurrentlyM encoder (dedupe hash loaded).1)

/-- From ExtractImagesFromFile: create the output directory, dispatch the
formats original and empty to the sequential copy-through path, and any other
format through GetEncoder to the concurrent conversion path. -/
def ExtractImagesFromFile {A D : Type} [DecidableEq D] (hash : Bytes → D)
    (w : World A) (pngE webpE : ImageEncoder A) (format : String) :
    Except Err Unit × List Event :=
  if format == "original" || format == "" then
    let r := extractImagesOriginalM hash w
    (r.1, .mkdirOut :: r.2)
  else
    match GetEncoder pngE webpE format with
    | .error e => (.error e, [.mkdirOut])
    | .ok encoder =>
      let r := extractImagesConcurrentM hash w encoder
      (r.1, .mkdirOut :: r.2)

/-- Specification-side definition, written from the spec's words rather than
from the source loop: the subsequence keeping, in input order, the first
occurrence of each distinct digest — the head is kept and all later images
with the head's digest are discarded before recursing. -/
def firstOccurrences {A D : Type} [DecidableEq D] (hash : Bytes → D) :
    List (LoadedImage A) → List (LoadedImage A)
  | [] => []
  | li :: rest =>
    li :: firstOccurrences hash
      (rest.filter fun x => decide (hash x.FileData ≠ hash li.FileData))
termination_by l => l.length
decreasing_by
  simp only [List.length_cons]
  exact Nat.lt_succ_of_le (List.length_filter_le _ _)

/-! ### Concrete artifacts used by witnesses and counterexamples -/

/-- A concrete encoder instance for witnesses (pixel type Unit, png extension). -/
def pngStub : ImageEncoder Unit := ⟨fun _ => [], ".png"⟩

/-- A concrete encoder instance for witnesses (pixel type Unit, webp extension). -/
def webpStub : ImageEncoder Unit := ⟨fun _ => [], ".webp"⟩

/-- A concrete digest function for witnesses: the bytes themselves. -/
def idHash : Bytes → Bytes := fun b => b

/-- A concrete world whose second extracted image fails to decode. -/
def decodeFailWorld : World Unit :=
  ⟨.ok [⟨"a.png", false, [1]⟩, ⟨"b.png", false, [9]⟩, ⟨"c.png", false, [2]⟩],
   fun b => if b = [9] then none else some ()⟩

/-- A concrete world with no extracted images and a decoder that always
succeeds. -/
def emptyWorld : World Unit := ⟨.ok [], fun _ => some ()⟩

/-! ### Helper lemmas on the deduplication loop -/

theorem dedupeAux_len {A D : Type} [DecidableEq D] (hash : Bytes → D) :
    ∀ (l : List (LoadedImage A)) (seen : List D) (dup : Nat),
      (dedupeAux hash l seen dup).1.length + (dedupeAux hash l seen dup).2
        = l.length + dup := by
  intro l
  induction l with
  | nil => intro seen dup; simp [dedupeAux]
  | cons li rest ih =>
    intro seen dup
    by_cases h : hash li.FileData ∈ seen
    · simp only [dedupeAux, if_pos h]
      have := ih seen (dup + 1)
      simp only [List.length_cons]
      omega
    · simp only [dedupeAux, if_neg h]
      have := ih (hash li.FileData :: seen) dup
      simp only [List.length_cons]
      omega

theorem dedupeAux_digests {A D : Type} [DecidableEq D] (hash : Bytes → D) :
    ∀ (l : List (LoadedImage A)) (seen : List D) (dup : Nat),
      ((dedupeAux hash l seen dup).1.map fun x => hash x.FileData).Nodup ∧
      ∀ x ∈ (dedupeAux hash l seen dup).1, hash x.FileData ∉ seen := by
  intro l
  induction l with
  | nil => intro seen dup; simp [dedupeAux]
  | cons li rest ih =>
    intro seen dup
    by_cases h : hash li.FileData ∈ seen
    · simpa only [dedupeAux, if_pos h] using ih seen (dup + 1)
    · simp only [dedupeAux, if_neg h]
      obtain ⟨ihnd, ihseen⟩ := ih (hash li.FileData :: seen) dup
      refine ⟨?_, ?_⟩
      · simp only [List.map_cons, List.nodup_cons]
        refine ⟨?_, ihnd⟩
        intro hmem
        obtain ⟨x, hx, hxeq⟩ := List.mem_map.mp hmem
        exact ihseen x hx (hxeq ▸ List.mem_cons_self _ _)
      · intro x hx
        rcases List.mem_cons.mp hx with rfl | hx'
        · exact h
        · exact fun hc => ihseen x hx' (List.mem_cons_of_mem _ hc)

theorem dedupeAux_of_nodup {A D : Type} [DecidableEq D] (hash : Bytes → D) :
    ∀ (l : List (LoadedImage A)) (seen : List D) (dup : Nat),
      (∀ x ∈ l, hash x.FileData ∉ seen) →
      ((l.map fun x => hash x.FileData).Nodup) →
      dedupeAux hash l seen dup = (l, dup) := by
  intro l
  induction l with
  | nil => intro seen dup _ _; simp [dedupeAux]
  | cons li rest ih =>
    intro seen dup hnin hnd
    have h : hash li.FileData ∉ seen := hnin li (List.mem_cons_self _ _)
    simp only [dedupeAux, if_neg h]
    simp only [List.map_cons, List.nodup_cons] at hnd
    have hrest : dedupeAux hash rest (hash li.FileData :: seen) dup = (rest, dup) := by
      refine ih (hash li.FileData :: seen) dup ?_ hnd.2
      intro x hx
      intro hc
      rcases List.mem_cons.mp hc with heq | hmem
      · exact hnd.1 (heq ▸ List.mem_map_of_mem _ hx)
      · exact hnin x (List.mem_cons_of_mem _ hx) hmem
    rw [hrest]

theorem dedupeAux_all_seen {A D : Type} [DecidableEq D] (hash : Bytes → D) :
    ∀ (l : List (LoadedImage A)) (seen : List D) (dup : Nat),
      (∀ x ∈ l, hash x.FileData ∈ seen) →
      (dedupeAux hash l seen dup).1 = [] ∧
      (dedupeAux hash l seen dup).2 = dup + l.length := by
  intro l
  induction l with
  | nil => intro seen dup _; simp [dedupeAux]
  | cons li rest ih =>
    intro seen dup hall
    have h : hash li.FileData ∈ seen := hall li (List.mem_cons_self _ _)
    simp only [dedupeAux, if_pos h]
    obtain ⟨h1, h2⟩ := ih seen (dup + 1) fun x hx => hall x (List.mem_cons_of_mem _ hx)
    exact ⟨h1, by rw [h2]; simp [List.length_cons]; omega⟩

theorem dedupeAux_fst_eq_firstOccurrences {A D : Type} [DecidableEq D] (hash : Bytes → D) :
    ∀ (l : List (LoadedImage A)) (seen : List D) (dup : Nat),
      (dedupeAux hash l seen dup).1
        = firstOccurrences hash (l.filter fun x => decide (hash x.FileData ∉ seen)) := by
  intro l
  induction l with
  | nil => intro seen dup; simp [dedupeAux, firstOccurrences]
  | cons li rest ih =>
    intro seen dup
    by_cases h : hash li.FileData ∈ seen
    · simp only [dedupeAux, if_pos h, List.filter_cons]
      have hd : decide (hash li.FileData ∉ seen) = false := by simpa using h
      rw [hd]
      simp only [Bool.false_eq_true, if_neg]
      exact ih seen (dup + 1)
    · simp only [dedupeAux, if_neg h, List.filter_cons]
      have hd : decide (hash li.FileData ∉ seen) = true := by simpa using h
      rw [hd]
      simp only [if_pos]
      rw [firstOccurrences]
      congr 1
      rw [ih (hash li.FileData :: seen) dup]
      congr 1
      rw [List.filter_filter]
      refine List.filter_congr ?_
      intro x _
      by_cases h1 : hash x.FileData = hash li.FileData <;>
        by_cases h2 : hash x.FileData ∈ seen <;>
          simp [h1, h2, List.mem_cons]

/-! ### Claim C4 and C5: deduplication semantics -/

/-- C4: deduplication returns exactly the subsequence keeping the first
occurrence of each distinct content digest in input order; the skipped count
equals input length minus output length; with pairwise-distinct digests the
output is the whole input with skip count 0; and when all images are
byte-identical the output has length 1 and the skip count is the input length
minus one. -/
theorem dedupe_first_seen_spec {A D : Type} [DecidableEq D] (hash : Bytes → D)
    (l : List (LoadedImage A)) :
    (dedupe hash l).1 = firstOccurrences hash l ∧
    (dedupe hash l).1.length + (dedupe hash l).2 = l.length ∧
    (((l.map fun x => hash x.FileData).Nodup) → dedupe hash l = (l, 0)) ∧
    (∀ b : Bytes, l ≠ [] → (∀ x ∈ l, x.FileData = b) →
      (dedupe hash l).1.length = 1 ∧ (dedupe hash l).2 = l.length - 1) := by
  refine ⟨?_, ?_, ?_, ?_⟩
  · rw [dedupe, dedupeAux_fst_eq_firstOccurrences]
    congr 1
    refine List.filter_eq_self.mpr ?_
    intro x _
    simp
  · simpa using dedupeAux_len hash l [] 0
  · intro hnd
    exact dedupeAux_of_nodup hash l [] 0 (by simp) hnd
  · intro b hne hall
    match l, hne with
    | li :: rest, _ =>
      have h : hash li.FileData ∉ ([] : List D) := by simp
      simp only [dedupe, dedupeAux, if_neg h]
      have hrest := dedupeAux_all_seen hash rest [hash li.FileData] 0 ?_
      · refine ⟨?_, ?_⟩
        · simp [hrest.1]
        · simp [hrest.2]
      · intro x hx
        have hxb : x.FileData = b := hall x (List.mem_cons_of_mem _ hx)
        have hlib : li.FileData = b := hall li (List.mem_cons_self _ _)
        simp [hxb, hlib]

/-- C4 witness: on two images with distinct digests dedup keeps both with
skip count 0; on three byte-identical images it keeps one and skips two. -/
theorem dedupe_first_seen_spec_witness :
    dedupe idHash [(⟨(), [1]⟩ : LoadedImage Unit), ⟨(), [2]⟩]
      = ([⟨(), [1]⟩, ⟨(), [2]⟩], 0) ∧
    (dedupe idHash [(⟨(), [3]⟩ : LoadedImage Unit), ⟨(), [3]⟩, ⟨(), [3]⟩]).1.length = 1 ∧
    (dedupe idHash [(⟨(), [3]⟩ : LoadedImage Unit), ⟨(), [3]⟩, ⟨(), [3]⟩]).2 = 2 := by
  refine ⟨?_, ?_, ?_⟩
  · exact (dedupe_first_seen_spec idHash _).2.2.1 (by decide)
  · exact ((dedupe_first_seen_spec idHash _).2.2.2 [3] (by decide) (by decide)).1
  · exact ((dedupe_first_seen_spec idHash _).2.2.2 [3] (by decide) (by decide)).2

/-- C5: deduplication is idempotent — running dedup on its own unique output
returns that output unchanged with a skip count of 0. -/
theorem dedupe_idempotent {A D : Type} [DecidableEq D] (hash : Bytes → D)
    (l : List (LoadedImage A)) :
    dedupe hash (dedupe hash l).1 = ((dedupe hash l).1, 0) := by
  exact dedupeAux_of_nodup hash _ [] 0 (by simp) (dedupeAux_digests hash l [] 0).1

/-! ### Helper lemmas on the sequential copy-through loop -/

theorem processSeqAux_get? {D : Type} [DecidableEq D] (hash : Bytes → D) :
    ∀ (files : List ExtractedFile) (seen : List D) (dup u k : Nat)
      (name : String) (data : Bytes),
      (processSeqAux hash files seen dup u).1.get? k = some (name, data) →
      ∃ f, f ∈ files ∧ f.isDir = false ∧ isImageFile f.name = true ∧
        data = f.data ∧ name = imageFileName (u + k) (outputExt f.name) := by
  intro files
  induction files with
  | nil => intro seen dup u k name data h; simp [processSeqAux] at h
  | cons f rest ih =>
    intro seen dup u k name data h
    by_cases hskip : (f.isDir || !isImageFile f.name) = true
    · simp only [processSeqAux, if_pos hskip] at h
      obtain ⟨g, hg, h2, h3, h4, h5⟩ := ih seen dup u k name data h
      exact ⟨g, List.mem_cons_of_mem _ hg, h2, h3, h4, h5⟩
    · rw [Bool.or_eq_true, not_or] at hskip
      have hdir : f.isDir = false := by simpa using hskip.1
      have himg : isImageFile f.name = true := by simpa using hskip.2
      have hskip' : ¬(f.isDir || !isImageFile f.name) = true := by simp [hdir, himg]
      by_cases hdup : hash f.data ∈ seen
      · simp only [processSeqAux, if_neg hskip', if_pos hdup] at h
        obtain ⟨g, hg, h2, h3, h4, h5⟩ := ih seen (dup + 1) u k name data h
        exact ⟨g, List.mem_cons_of_mem _ hg, h2, h3, h4, h5⟩
      · simp only [processSeqAux, if_neg hskip', if_neg hdup] at h
        match k, h with
        | 0, h =>
          simp only [List.get?_cons_zero, Option.some.injEq, Prod.mk.injEq] at h
          exact ⟨f, List.mem_cons_self _ _, hdir, himg, h.2.symm, by
            rw [← h.1]; congr 1⟩
        | k + 1, h =>
          simp only [List.get?_cons_succ] at h
          obtain ⟨g, hg, h2, h3, h4, h5⟩ :=
            ih (hash f.data :: seen) dup (u + 1) k name data h
          refine ⟨g, List.mem_cons_of_mem _ hg, h2, h3, h4, ?_⟩
          rw [h5]
          congr 1
          omega

theorem sToLower_eq_empty_iff (s : String) : sToLower s = "" ↔ s = "" := by
  constructor
  · intro h
    have hdata : s.data.map charToLower = [] := congrArg String.data h
    have hd : s.data = [] := List.map_eq_nil_iff.mp hdata
    have : s.data = ("" : String).data := hd
    exact String.ext this
  · intro h
    rw [h]
    rfl

/-! ### Claim C2: output file numbering -/

/-- C2 counterexample: in copy-through mode the first unique image is written
under the name image_0000 with its extension, not image_0001 — the numeric
field of processExtractedFilesSequential is the zero-based uniqueCount, so
the visible numbering of copy-through outputs is 0-based. -/
theorem copy_through_zero_based_cex :
    (processExtractedFilesSequential idHash [⟨"a.png", false, [1]⟩]).1
      = [("image_0000.png", [1])] ∧
    "image_0000.png" ≠ "image_0001.png" := by
  decide

/-- C2 amended: in conversion mode every output for zero-based index i is
named with numeric field i + 1 (1-based, first file image_0001), while in
copy-through mode the k-th written file carries numeric field k itself
(0-based, first file image_0000). -/
theorem output_naming_indices {A D : Type} [DecidableEq D] (enc : ImageEncoder A)
    (img : A) (idx : Nat) (hash : Bytes → D) (files : List ExtractedFile)
    (k : Nat) (name : String) (data : Bytes) :
    (writeImageFile enc img idx).1 = imageFileName (idx + 1) enc.Extension ∧
    ((processExtractedFilesSequential hash files).1.get? k = some (name, data) →
      ∃ ext, name = imageFileName k ext) := by
  refine ⟨rfl, ?_⟩
  intro h
  obtain ⟨f, _, _, _, _, h5⟩ := processSeqAux_get? hash files [] 0 0 k name data h
  exact ⟨outputExt f.name, by simpa using h5⟩

/-- C2 witness: a conversion-mode write at index 0 is named image_0001.png,
and the concrete copy-through run on one file produces the name
image_0000.png, which matches numeric field 0. -/
theorem output_naming_indices_witness :
    (writeImageFile pngStub () 0).1 = imageFileName 1 pngStub.Extension ∧
    ∃ ext, "image_0000.png" = imageFileName 0 ext := by
  refine ⟨(output_naming_indices pngStub () 0 idHash
    [⟨"a.png", false, [1]⟩] 0 "image_0000.png" [1]).1, ?_⟩
  exact (output_naming_indices pngStub () 0 idHash
    [⟨"a.png", false, [1]⟩] 0 "image_0000.png" [1]).2 (by decide)

/-! ### Claim C8: copy-through extension handling -/

/-- C8: every file written by the copy-through path comes from a source entry
that passed the image-extension filter, carries that entry's bytes, and is
named with the source extension lower-cased — with .png substituted when the
source name has no extension. -/
theorem copy_through_extension_preserved {D : Type} [DecidableEq D]
    (hash : Bytes → D) (files : List ExtractedFile) (k : Nat)
    (name : String) (data : Bytes)
    (h : (processExtractedFilesSequential hash files).1.get? k = some (name, data)) :
    ∃ f, f ∈ files ∧ data = f.data ∧ isImageFile f.name = true ∧
      (filepathExt f.name ≠ "" → name = imageFileName k (sToLower (filepathExt f.name))) ∧
      (filepathExt f.name = "" → name = imageFileName k ".png") := by
  obtain ⟨f, hf, _, h3, h4, h5⟩ := processSeqAux_get? hash files [] 0 0 k name data h
  rw [Nat.zero_add] at h5
  refine ⟨f, hf, h4, h3, ?_, ?_⟩
  · intro hne
    rw [h5]
    congr 1
    have hlne : sToLower (filepathExt f.name) ≠ "" :=
      fun hc => hne ((sToLower_eq_empty_iff _).mp hc)
    simp only [outputExt]
    rw [if_neg (by simpa using hlne)]
  · intro heq
    rw [h5]
    congr 1
    simp only [outputExt, heq]
    rfl

/-- C8 witness: a single source file named a.PNG is copied to
image_0000.png — extension preserved lower-cased. -/
theorem copy_through_extension_preserved_witness :
    ∃ f, f ∈ [(⟨"a.PNG", false, [1]⟩ : ExtractedFile)] ∧ ([1] : Bytes) = f.data ∧
      isImageFile f.name = true ∧
      (filepathExt f.name ≠ "" →
        "image_0000.png" = imageFileName 0 (sToLower (filepathExt f.name))) ∧
      (filepathExt f.name = "" → "image_0000.png" = imageFileName 0 ".png") :=
  copy_through_extension_preserved idHash [⟨"a.PNG", false, [1]⟩] 0
    "image_0000.png" [1] (by decide)

/-! ### Claim C10: the image-extension filter -/

theorem processSeqAux_filter {D : Type} [DecidableEq D] (hash : Bytes → D) :
    ∀ (files : List ExtractedFile) (seen : List D) (dup u : Nat),
      processSeqAux hash (files.filter fun f => isImageFile f.name) seen dup u
        = processSeqAux hash files seen dup u := by
  intro files
  induction files with
  | nil => intro seen dup u; rfl
  | cons f rest ih =>
    intro seen dup u
    by_cases himg : isImageFile f.name = true
    · rw [List.filter_cons_of_pos (by simpa using himg)]
      by_cases hdir : f.isDir = true
      · have hc : (f.isDir || !isImageFile f.name) = true := by simp [hdir]
        simp only [processSeqAux, if_pos hc]
        exact ih seen dup u
      · have hc : ¬(f.isDir || !isImageFile f.name) = true := by
          simp [Bool.eq_false_iff.mpr hdir, himg]
        simp only [processSeqAux, if_neg hc]
        by_cases hdup : hash f.data ∈ seen
        · simp only [if_pos hdup]
          exact ih seen (dup + 1) u
        · simp only [if_neg hdup]
          rw [ih (hash f.data :: seen) dup (u + 1)]
    · rw [List.filter_cons_of_neg (by simpa using himg)]
      have hc : (f.isDir || !isImageFile f.name) = true := by
        simp [Bool.eq_false_iff.mpr himg]
      rw [ih seen dup u]
      conv_rhs => rw [processSeqAux]
      rw [if_pos hc]

theorem loadImages_filter {A : Type} (decode : Bytes → Option A) :
    ∀ files : List ExtractedFile,
      loadImages decode (files.filter fun f => isImageFile f.name)
        = loadImages decode files := by
  intro files
  induction files with
  | nil => rfl
  | cons f rest ih =>
    by_cases himg : isImageFile f.name = true
    · rw [List.filter_cons_of_pos (by simpa using himg)]
      have hc : ¬(!isImageFile f.name) = true := by simp [himg]
      simp only [loadImages, if_neg hc]
      rw [ih]
    · rw [List.filter_cons_of_neg (by simpa using himg)]
      have hc : (!isImageFile f.name) = true := by
        simp [Bool.eq_false_iff.mpr himg]
      rw [ih]
      conv_rhs => rw [loadImages]
      rw [if_pos hc]

/-- C10: running either path on the extracted entries gives exactly the same
result as running it on only the entries whose extension passes the
image-extension filter — a filtered-out file is never copied, decoded, hashed
or counted as a duplicate; a name with no extension never passes the filter;
and every name that does pass has a nonempty lower-cased extension, so the
.png default of the copy-through path only ever concerns filtered-in files. -/
theorem non_image_files_skipped {A D : Type} [DecidableEq D] (hash : Bytes → D)
    (decode : Bytes → Option A) (files : List ExtractedFile) :
    processExtractedFilesSequential hash (files.filter fun f => isImageFile f.name)
      = processExtractedFilesSequential hash files ∧
    loadImages decode (files.filter fun f => isImageFile f.name)
      = loadImages decode files ∧
    (∀ s : String, filepathExt s = "" → isImageFile s = false) ∧
    (∀ s : String, isImageFile s = true → sToLower (filepathExt s) ≠ "") := by
  refine ⟨processSeqAux_filter hash files [] 0 0, loadImages_filter decode files, ?_, ?_⟩
  · intro s hs
    simp only [isImageFile, hs]
    rfl
  · intro s hs hc
    simp only [isImageFile, hc] at hs
    exact absurd hs (by decide)

/-- C10 witness: a file named noext (no extension) fails the filter, and the
filtered-in name a.png has the nonempty lower-cased extension .png. -/
theorem non_image_files_skipped_witness :
    isImageFile "noext" = false ∧ sToLower (filepathExt "a.png") ≠ "" := by
  refine ⟨?_, ?_⟩
  · exact (non_image_files_skipped idHash (fun _ => (some () : Option Unit)) []).2.2.1
      "noext" (by decide)
  · exact (non_image_files_skipped idHash (fun _ => (some () : Option Unit)) []).2.2.2
      "a.png" (by decide)

/-! ### Claim C1: decode failures in conversion mode -/

theorem loadImages_error_of_bad {A : Type} (decode : Bytes → Option A) :
    ∀ (files : List ExtractedFile) (f : ExtractedFile), f ∈ files →
      isImageFile f.name = true → decode f.data = none →
      loadImages decode files = .error .decodeError := by
  intro files
  induction files with
  | nil => intro f hf _ _; exact absurd hf (List.not_mem_nil _)
  | cons g rest ih =>
    intro f hf himg hdec
    by_cases hg : isImageFile g.name = true
    · have hc : ¬(!isImageFile g.name) = true := by simp [hg]
      simp only [loadImages, if_neg hc]
      cases hgd : decode g.data with
      | none => rfl
      | some img =>
        have hfr : f ∈ rest := by
          rcases List.mem_cons.mp hf with rfl | hfr
          · rw [hgd] at hdec; exact absurd hdec (by simp)
          · exact hfr
        rw [ih f hfr himg hdec]
        rfl
    · have hc : (!isImageFile g.name) = true := by simp [Bool.eq_false_iff.mpr hg]
      simp only [loadImages, if_pos hc]
      have hfr : f ∈ rest := by
        rcases List.mem_cons.mp hf with rfl | hfr
        · exact absurd himg hg
        · exact hfr
      exact ih f hfr himg hdec

/-- C1 counterexample: with three extracted images of which the second fails
to decode, conversion mode returns a fatal decode error for the whole batch
instead of skipping the bad image — the decode loop of
extractImagesConcurrent returns the error, so no output is produced for the
two valid images. -/
theorem decode_failure_aborts_batch_cex :
    ExtractImagesFromFile idHash decodeFailWorld pngStub webpStub "png"
      = (Except.error Err.decodeError, [Event.mkdirOut, Event.tempExtract]) := by
  rfl

/-- C1 amended: in conversion mode an image whose bytes fail to decode is
fatal — whenever some extracted image file fails to decode,
ExtractImagesFromFile returns the decode error for the whole batch (for both
the png and the webp format), rather than skipping that image. -/
theorem decode_failure_returns_error {A D : Type} [DecidableEq D]
    (hash : Bytes → D) (w : World A) (pngE webpE : ImageEncoder A)
    (files : List ExtractedFile) (f : ExtractedFile)
    (hw : w.extracted = .ok files) (hmem : f ∈ files)
    (himg : isImageFile f.name = true) (hdec : w.decode f.data = none) :
    (ExtractImagesFromFile hash w pngE webpE "png").1 = .error .decodeError ∧
    (ExtractImagesFromFile hash w pngE webpE "webp").1 = .error .decodeError := by
  have hload := loadImages_error_of_bad w.decode files f hmem himg hdec
  have hpng : ExtractImagesFromFile hash w pngE webpE "png"
      = ((extractImagesConcurrentM hash w pngE).1,
         Event.mkdirOut :: (extractImagesConcurrentM hash w pngE).2) := rfl
  have hwebp : ExtractImagesFromFile hash w pngE webpE "webp"
      = ((extractImagesConcurrentM hash w webpE).1,
         Event.mkdirOut :: (extractImagesConcurrentM hash w webpE).2) := rfl
  constructor
  · rw [hpng]
    simp only [extractImagesConcurrentM, hw, hload]
  · rw [hwebp]
    simp only [extractImagesConcurrentM, hw, hload]

/-- C1 witness: the amended theorem applied to the concrete world whose
second image fails to decode. -/
theorem decode_failure_returns_error_witness :
    (ExtractImagesFromFile idHash decodeFailWorld pngStub webpStub "png").1
      = .error .decodeError ∧
    (ExtractImagesFromFile idHash decodeFailWorld pngStub webpStub "webp").1
      = .error .decodeError :=
  decode_failure_returns_error idHash decodeFailWorld pngStub webpStub
    [⟨"a.png", false, [1]⟩, ⟨"b.png", false, [9]⟩, ⟨"c.png", false, [2]⟩]
    ⟨"b.png", false, [9]⟩ rfl (by decide) (by decide) rfl

/-! ### Claim C3: unregistered output formats -/

/-- C3 counterexample: requesting the unregistered format tiff does return
the unsupported-format error before temp extraction and before any file
write, but the output directory has already been created — the event trace of
the call is exactly the mkdirOut event, because ExtractImagesFromFile calls
os.Mkdir before consulting the encoder registry. -/
theorem unsupported_format_mkdir_cex :
    ExtractImagesFromFile idHash emptyWorld pngStub webpStub "tiff"
      = (Except.error (Err.unsupportedFormat "tiff"), [Event.mkdirOut]) := by
  rfl

/-- C3 amended: for every format key other than original and the empty string
whose lower-casing is neither png nor webp, ExtractImagesFromFile returns the
unsupported-format error with an event trace containing only the creation of
the output directory — so the rejection happens before temp extraction and
before any file write, but after the output directory is created. -/
theorem unsupported_format_before_extraction {A D : Type} [DecidableEq D]
    (hash : Bytes → D) (w : World A) (pngE webpE : ImageEncoder A)
    (format : String) (h1 : format ≠ "original") (h2 : format ≠ "")
    (h3 : sToLower format ≠ "png") (h4 : sToLower format ≠ "webp") :
    ExtractImagesFromFile hash w pngE webpE format
      = (.error (.unsupportedFormat (sToLower format)), [.mkdirOut]) := by
  have hb : (format == "original" || format == "") = false := by
    simp [h1, h2]
  have hg : GetEncoder pngE webpE format
      = .error (.unsupportedFormat (sToLower format)) := by
    simp only [GetEncoder]
    rw [if_neg (by simpa using h3), if_neg (by simpa using h4)]
  simp only [ExtractImagesFromFile, hb, Bool.false_eq_true, if_false, hg]

/-- C3 witness: the amended theorem applied to the concrete format key bmp. -/
theorem unsupported_format_before_extraction_witness :
    ExtractImagesFromFile idHash emptyWorld pngStub webpStub "bmp"
      = (.error (.unsupportedFormat (sToLower "bmp")), [.mkdirOut]) :=
  unsupported_format_before_extraction idHash emptyWorld pngStub webpStub "bmp"
    (by decide) (by decide) (by decide) (by decide)

/-! ### Claim C9: the empty format key -/

/-- C9: the empty format string is dispatched exactly like original — the
call equals the original-format call for any encoder registry contents, it is
the sequential copy-through path with the output-directory creation in front,
and its result is either success or the extraction failure, never an
unsupported-format error. -/
theorem empty_format_is_original {A D : Type} [DecidableEq D] (hash : Bytes → D)
    (w : World A) (pngE webpE pngE' webpE' : ImageEncoder A) :
    ExtractImagesFromFile hash w pngE webpE ""
      = ExtractImagesFromFile hash w pngE' webpE' "original" ∧
    ExtractImagesFromFile hash w pngE webpE ""
      = ((extractImagesOriginalM hash w).1,
         .mkdirOut :: (extractImagesOriginalM hash w).2) ∧
    ((ExtractImagesFromFile hash w pngE webpE "").1 = .ok () ∨
      (ExtractImagesFromFile hash w pngE webpE "").1 = .error .extractFail) := by
  refine ⟨rfl, rfl, ?_⟩
  have h : (ExtractImagesFromFile hash w pngE webpE "").1
      = (extractImagesOriginalM hash w).1 := rfl
  rw [h]
  cases hw : w.extracted with
  | error e => right; simp [extractImagesOriginalM, hw]
  | ok files => left; simp [extractImagesOriginalM, hw]

/-! ### Claim C6: worker-pool sizing -/

/-- C6 counterexample: on a machine with 8 available hardware execution units
the encode pool still runs 4 workers — the pool size is the hardcoded
constant 4 of processImagesConcurrently and does not equal the available
parallelism. -/
theorem pool_size_hardcoded_cex : numWorkers 8 = 4 ∧ numWorkers 8 ≠ 8 := by
  decide

/-- C6 amended: the encode worker pool always has exactly 4 workers, a
hardcoded constant independent of the machine's available parallelism. -/
theorem pool_size_constant (availableParallelism : Nat) :
    numWorkers availableParallelism = 4 := rfl

/-! ### Claim C7: first-error collection -/

/-- C7 counterexample: with two errors outstanding in the result stream, the
collection loop of processImagesConcurrently returns the first error after
consuming a single result — it does not drain the remaining outstanding
results before returning. -/
theorem first_error_no_drain_cex :
    (collectErrors [some 0, some (1 : Nat)]).1 = some 0 ∧
    (collectErrors [some 0, some (1 : Nat)]).2 ≠ [some 0, some (1 : Nat)].length := by
  decide

/-- C7 amended: the pool's caller returns the first error in result-arrival
order (none when every task succeeded), but consumes only the results up to
and including that first error — all results are consumed only in the
error-free case. -/
theorem first_error_collection {E : Type} (results : List (Option E)) :
    (collectErrors results).1 = (results.filterMap id).head? ∧
    (collectErrors results).2 =
      (results.takeWhile fun o => o.isNone).length +
        (if (results.takeWhile fun o => o.isNone).length = results.length
          then 0 else 1) := by
  induction results with
  | nil => simp [collectErrors]
  | cons o rest ih =>
    cases o with
    | some e =>
      refine ⟨rfl, ?_⟩
      simp only [collectErrors, List.takeWhile_cons, Option.isNone_some,
        Bool.false_eq_true, if_false, List.length_nil, List.length_cons]
      rw [if_neg (by omega)]
    | none =>
      refine ⟨?_, ?_⟩
      · simpa only [collectErrors, List.filterMap_cons_none] using ih.1
      · simp only [collectErrors, List.takeWhile_cons, Option.isNone_none,
          if_pos, List.length_cons]
        rw [ih.2]
        by_cases hc : (rest.takeWhile fun o => o.isNone).length = rest.length
        · rw [if_pos hc, if_pos (by omega)]
        · rw [if_neg hc, if_neg (by omega)]

end Pixf
